import Mathlib

/-!
# Verification of the Eisenstein integer / fraction library

Shallow embedding of `src/eisenstein.py` (class `Eisenstein`, function
`get_eisenstein_form`, function `gcd`, class `EisensteinFraction`, function
`inverse`).

Modelling conventions:
* Python `int` is `ℤ`.
* Python `complex` values produced by `Eisenstein.get_complex_form` always have
  the shape `x + t·√3·i` with `x t : ℚ`; we represent such a value exactly by
  the pair `(x, t)` (structure `ComplexSqrt3`).  The floating point
  `math.sqrt(3)` of the source is idealized to the exact real `√3`; with that
  idealization every quantity the code manipulates is rational in this
  representation, and complex division becomes the exact `ComplexSqrt3.cdiv`
  below.
* Python's built-in `round` (round-half-to-even on the exact value) is
  `roundRat`.
* `a // b` (`__floordiv__`) is `Eisenstein.floordiv`, `a % b` (`__mod__`) is
  `Eisenstein.emod`.
* Python `ZeroDivisionError` (complex division by the zero complex number) is
  modelled by `Option`-valued variants (`none` = the exception escapes).
-/

/-- `class Eisenstein`: the value `a + b·ω` with integer components,
field names as in the source. -/
structure Eisenstein where
  a : ℤ
  b : ℤ
deriving DecidableEq

theorem Eisenstein.ext2 {x y : Eisenstein} (h1 : x.a = y.a) (h2 : x.b = y.b) :
    x = y := by
  cases x; cases y; cases h1; cases h2; rfl

namespace Eisenstein

/-- `__add__` (Eisenstein operand case): componentwise addition. -/
instance : Add Eisenstein := ⟨fun x y => ⟨x.a + y.a, x.b + y.b⟩⟩

/-- `__sub__` (Eisenstein operand case): componentwise subtraction. -/
instance : Sub Eisenstein := ⟨fun x y => ⟨x.a - y.a, x.b - y.b⟩⟩

/-- `__mul__` (Eisenstein operand case):
`(a+bw)(c+dw) = (ac-bd) + (bc+ad-db)w`. -/
instance : Mul Eisenstein :=
  ⟨fun x y => ⟨x.a * y.a - x.b * y.b, x.b * y.a + x.a * y.b - x.b * y.b⟩⟩

/-- Negation, `Eisenstein(0,0) - x` componentwise (not in the source as an
operator; needed for the ring structure on the source operations). -/
instance : Neg Eisenstein := ⟨fun x => ⟨-x.a, -x.b⟩⟩

/-- `Eisenstein(0, 0)`, the zero element. -/
instance : Zero Eisenstein := ⟨⟨0, 0⟩⟩

/-- `Eisenstein(1, 0)`, the one element. -/
instance : One Eisenstein := ⟨⟨1, 0⟩⟩

@[simp] theorem add_a (x y : Eisenstein) : (x + y).a = x.a + y.a := rfl
@[simp] theorem add_b (x y : Eisenstein) : (x + y).b = x.b + y.b := rfl
@[simp] theorem sub_a (x y : Eisenstein) : (x - y).a = x.a - y.a := rfl
@[simp] theorem sub_b (x y : Eisenstein) : (x - y).b = x.b - y.b := rfl
@[simp] theorem mul_a (x y : Eisenstein) :
    (x * y).a = x.a * y.a - x.b * y.b := rfl
@[simp] theorem mul_b (x y : Eisenstein) :
    (x * y).b = x.b * y.a + x.a * y.b - x.b * y.b := rfl
@[simp] theorem neg_a (x : Eisenstein) : (-x).a = -x.a := rfl
@[simp] theorem neg_b (x : Eisenstein) : (-x).b = -x.b := rfl
@[simp] theorem zero_a : (0 : Eisenstein).a = 0 := rfl
@[simp] theorem zero_b : (0 : Eisenstein).b = 0 := rfl
@[simp] theorem one_a : (1 : Eisenstein).a = 1 := rfl
@[simp] theorem one_b : (1 : Eisenstein).b = 0 := rfl

theorem ext_iff {x y : Eisenstein} : x = y ↔ x.a = y.a ∧ x.b = y.b := by
  constructor
  · rintro rfl; exact ⟨rfl, rfl⟩
  · rintro ⟨h1, h2⟩; exact Eisenstein.ext2 h1 h2

/-- The source operations satisfy the commutative ring laws (this is a fact
*about* the source's `__add__`/`__sub__`/`__mul__`, proved componentwise). -/
instance commRing : CommRing Eisenstein := by
  refine
  { add := (· + ·)
    zero := (0 : Eisenstein)
    neg := Neg.neg
    sub := (· - ·)
    mul := (· * ·)
    one := (1 : Eisenstein)
    nsmul := @nsmulRec Eisenstein ⟨0⟩ ⟨(· + ·)⟩
    zsmul := @zsmulRec Eisenstein ⟨0⟩ ⟨(· + ·)⟩ ⟨Neg.neg⟩
      (@nsmulRec Eisenstein ⟨0⟩ ⟨(· + ·)⟩)
    npow := @npowRec Eisenstein ⟨1⟩ ⟨(· * ·)⟩
    add_assoc := ?_
    zero_add := ?_
    add_zero := ?_
    add_comm := ?_
    neg_add_cancel := ?_
    sub_eq_add_neg := ?_
    left_distrib := ?_
    right_distrib := ?_
    zero_mul := ?_
    mul_zero := ?_
    mul_assoc := ?_
    one_mul := ?_
    mul_one := ?_
    mul_comm := ?_ } <;>
  intros <;>
  apply Eisenstein.ext2 <;>
  simp <;>
  ring

/-- `get_norm` property: `a*a - a*b + b*b`. -/
def get_norm (e : Eisenstein) : ℤ := e.a * e.a - e.a * e.b + e.b * e.b

theorem norm_nonneg (e : Eisenstein) : 0 ≤ e.get_norm := by
  have h1 := sq_nonneg (2 * e.a - e.b)
  have h2 := sq_nonneg e.b
  unfold get_norm
  nlinarith

theorem norm_mul (x y : Eisenstein) :
    (x * y).get_norm = x.get_norm * y.get_norm := by
  unfold get_norm
  simp
  ring

theorem norm_dvd {x y : Eisenstein} (h : x ∣ y) :
    x.get_norm ∣ y.get_norm := by
  obtain ⟨c, rfl⟩ := h
  exact ⟨c.get_norm, norm_mul x c⟩

theorem norm_pos {e : Eisenstein} (he : e ≠ 0) : 0 < e.get_norm := by
  rcases lt_or_eq_of_le (norm_nonneg e) with h | h
  · exact h
  · exfalso
    apply he
    have h4 : (2 * e.a - e.b) ^ 2 + 3 * e.b ^ 2 = 0 := by
      unfold get_norm at h
      nlinarith
    have hb : e.b = 0 := by nlinarith [sq_nonneg (2 * e.a - e.b), sq_nonneg e.b]
    have ha : e.a = 0 := by nlinarith [sq_nonneg (2 * e.a - e.b)]
    exact Eisenstein.ext2 ha hb

end Eisenstein

/-- Python's built-in `round` on the exact (rational) value: round half to
even, as CPython does for floats. -/
def roundRat (x : ℚ) : ℤ :=
  if x - ⌊x⌋ < 1 / 2 then ⌊x⌋
  else if 1 / 2 < x - ⌊x⌋ then ⌊x⌋ + 1
  else if ⌊x⌋ % 2 = 0 then ⌊x⌋ else ⌊x⌋ + 1

theorem roundRat_close (x : ℚ) :
    -(1 / 2) ≤ x - roundRat x ∧ x - roundRat x ≤ 1 / 2 := by
  have h1 := Int.floor_le x
  have h2 := Int.lt_floor_add_one x
  unfold roundRat
  split_ifs <;> constructor <;> push_cast <;> linarith

theorem roundRat_intCast (n : ℤ) : roundRat (n : ℚ) = n := by
  simp [roundRat]

/-- A Python `complex` value of the shape `x + t·√3·i`, represented exactly by
the rational pair `(x, t)`.  Every complex value the source manipulates has
this shape once `math.sqrt(3)` is idealized to the exact `√3`. -/
structure ComplexSqrt3 where
  x : ℚ
  t : ℚ
deriving DecidableEq

/-- Python complex division `u / v` on values of the `x + t·√3·i` shape:
`u/v = u·conj(v)/|v|²`, where for `v = x₂ + t₂·√3·i` we have
`|v|² = x₂² + 3t₂²` and
`u·conj(v) = (x₁x₂ + 3t₁t₂) + (t₁x₂ − x₁t₂)·√3·i`. -/
def ComplexSqrt3.cdiv (u v : ComplexSqrt3) : ComplexSqrt3 :=
  ⟨(u.x * v.x + 3 * u.t * v.t) / (v.x ^ 2 + 3 * v.t ^ 2),
   (u.t * v.x - u.x * v.t) / (v.x ^ 2 + 3 * v.t ^ 2)⟩

namespace Eisenstein

/-- `get_complex_form` property: `complex(a - b/2, b*sqrt(3)/2)`, i.e. the value
`(a - b/2) + (b/2)·√3·i`. -/
def get_complex_form (e : Eisenstein) : ComplexSqrt3 :=
  ⟨(e.a : ℚ) - e.b / 2, (e.b : ℚ) / 2⟩

end Eisenstein

/-- `get_eisenstein_form(var)`: `Eisenstein(round(x + y/sqrt(3)),
round(2*y/sqrt(3)))` where `x = var.real`, `y = var.imag`; in the
`(x, t)`-representation `y/√3 = t`. -/
def get_eisenstein_form (v : ComplexSqrt3) : Eisenstein :=
  ⟨roundRat (v.x + v.t), roundRat (2 * v.t)⟩

namespace Eisenstein

/-- `__floordiv__`: round the exact complex quotient back to the lattice. -/
def floordiv (a b : Eisenstein) : Eisenstein :=
  get_eisenstein_form (a.get_complex_form.cdiv b.get_complex_form)

/-- `__mod__`: `K = get_eisenstein_form(self/other); return self - K * other`. -/
def emod (a b : Eisenstein) : Eisenstein := a - floordiv a b * b

end Eisenstein

/-!
## Executable integer-level mirror

Rational arithmetic does not reduce in the kernel, so for evaluating the
embedding at concrete inputs we provide an integer-only mirror of the rounded
division and prove it equal to the rational (source-level) definitions.
-/

/-- Integer-only mirror of `roundRat (p / N)` for `0 < N` (note `Int`'s `/`
and `%` are Euclidean, so `p / N` is the floor and `p % N ∈ [0, N)`). -/
def roundDiv (p N : ℤ) : ℤ :=
  if 2 * (p % N) < N then p / N
  else if N < 2 * (p % N) then p / N + 1
  else if p / N % 2 = 0 then p / N else p / N + 1

theorem floor_intCast_div (p N : ℤ) (hN : 0 < N) :
    ⌊(p : ℚ) / (N : ℚ)⌋ = p / N := by
  have hNQ : (0 : ℚ) < (N : ℚ) := by exact_mod_cast hN
  have hdmQ : (N : ℚ) * ((p / N : ℤ) : ℚ) + ((p % N : ℤ) : ℚ) = (p : ℚ) := by
    exact_mod_cast congrArg (fun z : ℤ => (z : ℚ)) (Int.ediv_add_emod p N)
  have hm0Q : (0 : ℚ) ≤ ((p % N : ℤ) : ℚ) := by
    exact_mod_cast Int.emod_nonneg p (ne_of_gt hN)
  have hmNQ : ((p % N : ℤ) : ℚ) < (N : ℚ) := by
    exact_mod_cast Int.emod_lt_of_pos p hN
  rw [Int.floor_eq_iff]
  constructor
  · rw [le_div_iff₀ hNQ]
    nlinarith
  · rw [div_lt_iff₀ hNQ]
    nlinarith

theorem roundRat_zero : roundRat 0 = 0 := by
  simpa using roundRat_intCast 0

theorem roundRat_div_eq_roundDiv (p N : ℤ) (hN : 0 < N) :
    roundRat ((p : ℚ) / (N : ℚ)) = roundDiv p N := by
  have hNQ : (0 : ℚ) < (N : ℚ) := by exact_mod_cast hN
  have hdmQ : (N : ℚ) * ((p / N : ℤ) : ℚ) + ((p % N : ℤ) : ℚ) = (p : ℚ) := by
    exact_mod_cast congrArg (fun z : ℤ => (z : ℚ)) (Int.ediv_add_emod p N)
  have hfrac : (p : ℚ) / (N : ℚ) - ((p / N : ℤ) : ℚ) = ((p % N : ℤ) : ℚ) / N := by
    field_simp
    linarith
  have hc1 : ((p : ℚ) / (N : ℚ) - ((p / N : ℤ) : ℚ) < 1 / 2) ↔
      2 * (p % N) < N := by
    rw [hfrac,
      div_lt_div_iff₀ hNQ (by norm_num : (0:ℚ) < 2),
      show ((p % N : ℤ) : ℚ) * 2 = ((2 * (p % N) : ℤ) : ℚ) by push_cast; ring,
      show (1 : ℚ) * (N : ℚ) = ((N : ℤ) : ℚ) by rw [one_mul],
      Int.cast_lt]
  have hc2 : (1 / 2 < (p : ℚ) / (N : ℚ) - ((p / N : ℤ) : ℚ)) ↔
      N < 2 * (p % N) := by
    rw [hfrac,
      div_lt_div_iff₀ (by norm_num : (0:ℚ) < 2) hNQ,
      show (1 : ℚ) * (N : ℚ) = ((N : ℤ) : ℚ) by rw [one_mul],
      show ((p % N : ℤ) : ℚ) * 2 = ((2 * (p % N) : ℤ) : ℚ) by push_cast; ring,
      Int.cast_lt]
  unfold roundRat roundDiv
  rw [floor_intCast_div p N hN]
  simp only [hc1, hc2]

namespace Eisenstein

/-- Integer-only mirror of `floordiv`. -/
def floordivInt (x y : Eisenstein) : Eisenstein :=
  if y = 0 then ⟨0, 0⟩
  else ⟨roundDiv (x.a * y.a - x.a * y.b + x.b * y.b) y.get_norm,
        roundDiv (x.b * y.a - x.a * y.b) y.get_norm⟩

theorem floordiv_eq_floordivInt (x y : Eisenstein) :
    floordiv x y = floordivInt x y := by
  by_cases hy : y = 0
  · subst hy
    show get_eisenstein_form _ = _
    rw [show get_complex_form 0 = ⟨0, 0⟩ by
      unfold get_complex_form; norm_num]
    rw [show (get_complex_form x).cdiv ⟨0, 0⟩ = ⟨0, 0⟩ by
      unfold ComplexSqrt3.cdiv; norm_num]
    unfold get_eisenstein_form floordivInt
    rw [if_pos rfl]
    apply Eisenstein.ext2
    · show roundRat ((0 : ℚ) + 0) = 0
      rw [show (0 : ℚ) + 0 = 0 by norm_num]
      exact roundRat_zero
    · show roundRat (2 * (0 : ℚ)) = 0
      rw [show (2 : ℚ) * 0 = 0 by norm_num]
      exact roundRat_zero
  · have hN : 0 < y.get_norm := norm_pos hy
    have hD : ((y.a : ℚ) - y.b / 2) ^ 2 + 3 * ((y.b : ℚ) / 2) ^ 2
        = (y.get_norm : ℚ) := by
      unfold get_norm
      push_cast
      ring
    have hD0 : ((y.a : ℚ) - y.b / 2) ^ 2 + 3 * ((y.b : ℚ) / 2) ^ 2 ≠ 0 := by
      rw [hD]
      exact_mod_cast ne_of_gt hN
    have hn0 : ((y.get_norm : ℤ) : ℚ) ≠ 0 := by
      exact_mod_cast ne_of_gt hN
    unfold floordivInt
    rw [if_neg hy]
    apply Eisenstein.ext2
    · show roundRat (((get_complex_form x).cdiv (get_complex_form y)).x
        + ((get_complex_form x).cdiv (get_complex_form y)).t)
        = roundDiv (x.a * y.a - x.a * y.b + x.b * y.b) y.get_norm
      rw [← roundRat_div_eq_roundDiv _ _ hN]
      congr 1
      simp only [ComplexSqrt3.cdiv, get_complex_form]
      rw [hD, div_add_div_same]
      congr 1
      push_cast
      ring
    · show roundRat (2 * ((get_complex_form x).cdiv (get_complex_form y)).t)
        = roundDiv (x.b * y.a - x.a * y.b) y.get_norm
      rw [← roundRat_div_eq_roundDiv _ _ hN]
      congr 1
      simp only [ComplexSqrt3.cdiv, get_complex_form]
      rw [hD, eq_div_iff hn0, mul_assoc, div_mul_cancel₀ _ hn0]
      push_cast
      ring

theorem roundDiv_close (p N : ℤ) (hN : 0 < N) :
    -(1 / 2) ≤ (p : ℚ) / (N : ℚ) - ((roundDiv p N : ℤ) : ℚ) ∧
      (p : ℚ) / (N : ℚ) - ((roundDiv p N : ℤ) : ℚ) ≤ 1 / 2 := by
  rw [← roundRat_div_eq_roundDiv p N hN]
  exact roundRat_close _

theorem quarter_bound (u v : ℚ) (h1 : -(1 / 2) ≤ u) (h2 : u ≤ 1 / 2)
    (h3 : -(1 / 2) ≤ v) (h4 : v ≤ 1 / 2) : u ^ 2 - u * v + v ^ 2 ≤ 3 / 4 := by
  nlinarith [mul_nonneg (by linarith : (0:ℚ) ≤ 1 / 2 - u)
      (by linarith : (0:ℚ) ≤ 1 / 2 - v),
    mul_nonneg (by linarith : (0:ℚ) ≤ 1 / 2 + u)
      (by linarith : (0:ℚ) ≤ 1 / 2 + v),
    mul_nonneg (by linarith : (0:ℚ) ≤ 1 / 2 - u)
      (by linarith : (0:ℚ) ≤ 1 / 2 + u),
    mul_nonneg (by linarith : (0:ℚ) ≤ 1 / 2 - v)
      (by linarith : (0:ℚ) ≤ 1 / 2 + v)]

/-- The rational norm of `x - ⟨A, B⟩ * y` factors through the exact quotient:
with `p, q` the components of `x · conj y` and `N = norm y`, it equals
`((p/N - A)² - (p/N - A)(q/N - B) + (q/N - B)²) · N`. -/
theorem norm_sub_round_eval (x y : Eisenstein) (A B : ℤ) (hy : y ≠ 0) :
    (((x - (⟨A, B⟩ : Eisenstein) * y).get_norm : ℤ) : ℚ)
      = ((((x.a * y.a - x.a * y.b + x.b * y.b : ℤ) : ℚ) / ((y.get_norm : ℤ) : ℚ)
            - (A : ℚ)) ^ 2
          - (((x.a * y.a - x.a * y.b + x.b * y.b : ℤ) : ℚ) / ((y.get_norm : ℤ) : ℚ)
            - (A : ℚ))
            * (((x.b * y.a - x.a * y.b : ℤ) : ℚ) / ((y.get_norm : ℤ) : ℚ)
            - (B : ℚ))
          + (((x.b * y.a - x.a * y.b : ℤ) : ℚ) / ((y.get_norm : ℤ) : ℚ)
            - (B : ℚ)) ^ 2) * ((y.get_norm : ℤ) : ℚ) := by
  have hn0 : ((y.get_norm : ℤ) : ℚ) ≠ 0 := by
    exact_mod_cast ne_of_gt (norm_pos hy)
  rw [show (x - (⟨A, B⟩ : Eisenstein) * y).get_norm
      = (x.a - (A * y.a - B * y.b)) * (x.a - (A * y.a - B * y.b))
        - (x.a - (A * y.a - B * y.b)) * (x.b - (B * y.a + A * y.b - B * y.b))
        + (x.b - (B * y.a + A * y.b - B * y.b))
          * (x.b - (B * y.a + A * y.b - B * y.b)) from rfl]
  rw [show y.get_norm = y.a * y.a - y.a * y.b + y.b * y.b from rfl] at hn0 ⊢
  push_cast at hn0 ⊢
  field_simp
  ring

/-- Strict norm descent of the rounded remainder: for `y ≠ 0`,
`norm (x % y) < norm y` (in fact `norm (x % y) ≤ (3/4)·norm y`). -/
theorem emod_norm_lt (x y : Eisenstein) (hy : y ≠ 0) :
    (emod x y).get_norm < y.get_norm := by
  have hN : 0 < y.get_norm := norm_pos hy
  have hNQ : (0 : ℚ) < ((y.get_norm : ℤ) : ℚ) := by exact_mod_cast hN
  obtain ⟨hA1, hA2⟩ := roundDiv_close (x.a * y.a - x.a * y.b + x.b * y.b)
    y.get_norm hN
  obtain ⟨hB1, hB2⟩ := roundDiv_close (x.b * y.a - x.a * y.b) y.get_norm hN
  have hq := quarter_bound _ _ hA1 hA2 hB1 hB2
  have hmod : emod x y
      = x - (⟨roundDiv (x.a * y.a - x.a * y.b + x.b * y.b) y.get_norm,
              roundDiv (x.b * y.a - x.a * y.b) y.get_norm⟩ : Eisenstein) * y := by
    rw [show emod x y = x - floordiv x y * y from rfl, floordiv_eq_floordivInt]
    unfold floordivInt
    rw [if_neg hy]
  have hkey := norm_sub_round_eval x y
    (roundDiv (x.a * y.a - x.a * y.b + x.b * y.b) y.get_norm)
    (roundDiv (x.b * y.a - x.a * y.b) y.get_norm) hy
  have hmul := mul_le_mul_of_nonneg_right hq (le_of_lt hNQ)
  have hlt : (((emod x y).get_norm : ℤ) : ℚ) < ((y.get_norm : ℤ) : ℚ) := by
    rw [hmod, hkey]
    linarith
  exact_mod_cast hlt

/-- Integer-only mirror of `emod`. -/
def emodInt (x y : Eisenstein) : Eisenstein := x - floordivInt x y * y

theorem emod_eq_emodInt (x y : Eisenstein) : emod x y = emodInt x y := by
  rw [show emod x y = x - floordiv x y * y from rfl, floordiv_eq_floordivInt]
  rfl

/-- The body of `gcd`'s `while` loop.  In the source the loop is
`while b:` — always entered, since `Eisenstein` defines neither `__bool__`
nor `__len__`, so an `Eisenstein` instance is always truthy — and the only
exit is `if b == Eisenstein(0, 0): return a`, followed by
`a, b = b, a % b`.  The fuel argument is an artifact of the embedding;
`gcdLoop_eq` below shows the fuel `norm b + 1` used by `gcdLoop` suffices,
so `gcdLoop` satisfies exactly the loop's recurrence. -/
def gcdFuel : ℕ → Eisenstein → Eisenstein → Eisenstein
  | 0, a, _ => a
  | f + 1, a, b => if b = 0 then a else gcdFuel f b (emod a b)

/-- The `while` loop of `gcd`, entered with pair `(a, b)`. -/
def gcdLoop (a b : Eisenstein) : Eisenstein :=
  gcdFuel (b.get_norm.toNat + 1) a b

/-- `gcd(a, b)`: swap so that the first argument has the larger modulus
(`abs(b) > abs(a)` in the source; `math.sqrt` is strictly monotone on
nonnegative reals, so the float comparison of `sqrt(norm)` values is the
comparison of the integer norms), then run the loop. -/
def gcd (a b : Eisenstein) : Eisenstein :=
  if a.get_norm < b.get_norm then gcdLoop b a else gcdLoop a b

/-- Integer-only mirror of `gcdFuel`. -/
def gcdFuelInt : ℕ → Eisenstein → Eisenstein → Eisenstein
  | 0, a, _ => a
  | f + 1, a, b => if b = 0 then a else gcdFuelInt f b (emodInt a b)

theorem gcdFuel_eq_gcdFuelInt : ∀ (f : ℕ) (a b : Eisenstein),
    gcdFuel f a b = gcdFuelInt f a b := by
  intro f
  induction f with
  | zero => intro a b; rfl
  | succ f ih =>
    intro a b
    show (if b = 0 then a else gcdFuel f b (emod a b)) = _
    rw [emod_eq_emodInt, ih]
    rfl

/-- Integer-only mirror of `gcdLoop`. -/
def gcdLoopInt (a b : Eisenstein) : Eisenstein :=
  gcdFuelInt (b.get_norm.toNat + 1) a b

theorem gcdLoop_eq_gcdLoopInt (a b : Eisenstein) :
    gcdLoop a b = gcdLoopInt a b :=
  gcdFuel_eq_gcdFuelInt _ a b

/-- Integer-only mirror of `gcd`. -/
def gcdInt (a b : Eisenstein) : Eisenstein :=
  if a.get_norm < b.get_norm then gcdLoopInt b a else gcdLoopInt a b

theorem gcd_eq_gcdInt (a b : Eisenstein) : gcd a b = gcdInt a b := by
  unfold gcd gcdInt
  rw [gcdLoop_eq_gcdLoopInt, gcdLoop_eq_gcdLoopInt]

theorem gcdFuel_congr : ∀ (f1 f2 : ℕ) (a b : Eisenstein),
    b.get_norm.toNat < f1 → b.get_norm.toNat < f2 →
    gcdFuel f1 a b = gcdFuel f2 a b := by
  intro f1
  induction f1 with
  | zero => intro f2 a b h1 _; exact absurd h1 (Nat.not_lt_zero _)
  | succ f1 ih =>
    intro f2 a b h1 h2
    match f2 with
    | 0 => exact absurd h2 (Nat.not_lt_zero _)
    | f2 + 1 =>
      show (if b = 0 then a else gcdFuel f1 b (emod a b))
        = (if b = 0 then a else gcdFuel f2 b (emod a b))
      by_cases hb : b = 0
      · rw [if_pos hb, if_pos hb]
      · rw [if_neg hb, if_neg hb]
        have hlt := emod_norm_lt a b hb
        have hnn := norm_nonneg (emod a b)
        have hbn : 0 < b.get_norm := norm_pos hb
        apply ih
        · omega
        · omega

theorem gcdFuel_eq_gcdLoop (f : ℕ) (a b : Eisenstein)
    (h : b.get_norm.toNat < f) : gcdFuel f a b = gcdLoop a b :=
  gcdFuel_congr f (b.get_norm.toNat + 1) a b h (Nat.lt_succ_self _)

/-- The loop recurrence: exit exactly at `b = 0`, else recurse on
`(b, a % b)`. -/
theorem gcdLoop_rec (a b : Eisenstein) :
    gcdLoop a b = if b = 0 then a else gcdLoop b (emod a b) := by
  show (if b = 0 then a else gcdFuel b.get_norm.toNat b (emod a b)) = _
  by_cases hb : b = 0
  · rw [if_pos hb, if_pos hb]
  · rw [if_neg hb, if_neg hb]
    apply gcdFuel_eq_gcdLoop
    have hlt := emod_norm_lt a b hb
    have hnn := norm_nonneg (emod a b)
    have hbn : 0 < b.get_norm := norm_pos hb
    omega

theorem gcdFuel_dvd : ∀ (f : ℕ) (a b : Eisenstein), b.get_norm.toNat < f →
    gcdFuel f a b ∣ a ∧ gcdFuel f a b ∣ b := by
  intro f
  induction f with
  | zero => intro a b h; exact absurd h (Nat.not_lt_zero _)
  | succ f ih =>
    intro a b h
    show (if b = 0 then a else gcdFuel f b (emod a b)) ∣ a
      ∧ (if b = 0 then a else gcdFuel f b (emod a b)) ∣ b
    by_cases hb : b = 0
    · rw [if_pos hb, hb]
      exact ⟨dvd_refl a, dvd_zero a⟩
    · rw [if_neg hb]
      have hlt := emod_norm_lt a b hb
      have hnn := norm_nonneg (emod a b)
      have hbn : 0 < b.get_norm := norm_pos hb
      obtain ⟨h1, h2⟩ := ih b (emod a b) (by omega)
      have hsum : gcdFuel f b (emod a b) ∣ emod a b + floordiv a b * b :=
        dvd_add h2 (Dvd.dvd.mul_left h1 _)
      have ha : emod a b + floordiv a b * b = a := by
        rw [show emod a b = a - floordiv a b * b from rfl]
        ring
      rw [ha] at hsum
      exact ⟨hsum, h1⟩

theorem gcd_dvd (a b : Eisenstein) : gcd a b ∣ a ∧ gcd a b ∣ b := by
  unfold gcd gcdLoop
  split_ifs
  · exact ⟨(gcdFuel_dvd _ b a (Nat.lt_succ_self _)).2,
      (gcdFuel_dvd _ b a (Nat.lt_succ_self _)).1⟩
  · exact gcdFuel_dvd _ a b (Nat.lt_succ_self _)

/-- Rounded division is exact on exact multiples: `(g * m) // g = m`
for `g ≠ 0` (the complex quotient is the lattice point `m` itself, and
rounding an integer is the identity). -/
theorem floordiv_mul_cancel (g m : Eisenstein) (hg : g ≠ 0) :
    floordiv (g * m) g = m := by
  have hN : 0 < g.get_norm := norm_pos hg
  have hn0 : ((g.get_norm : ℤ) : ℚ) ≠ 0 := by exact_mod_cast ne_of_gt hN
  rw [floordiv_eq_floordivInt]
  unfold floordivInt
  rw [if_neg hg]
  have hp : (g * m).a * g.a - (g * m).a * g.b + (g * m).b * g.b
      = m.a * g.get_norm := by
    simp only [mul_a, mul_b]
    unfold get_norm
    ring
  have hq : (g * m).b * g.a - (g * m).a * g.b = m.b * g.get_norm := by
    simp only [mul_a, mul_b]
    unfold get_norm
    ring
  rw [hp, hq]
  apply Eisenstein.ext2
  · show roundDiv (m.a * g.get_norm) g.get_norm = m.a
    rw [← roundRat_div_eq_roundDiv _ _ hN,
      show ((m.a * g.get_norm : ℤ) : ℚ) / ((g.get_norm : ℤ) : ℚ) = ((m.a : ℤ) : ℚ) by
        push_cast
        exact mul_div_cancel_right₀ _ hn0]
    exact roundRat_intCast m.a
  · show roundDiv (m.b * g.get_norm) g.get_norm = m.b
    rw [← roundRat_div_eq_roundDiv _ _ hN,
      show ((m.b * g.get_norm : ℤ) : ℚ) / ((g.get_norm : ℤ) : ℚ) = ((m.b : ℤ) : ℚ) by
        push_cast
        exact mul_div_cancel_right₀ _ hn0]
    exact roundRat_intCast m.b

theorem floordiv_of_dvd (n g m : Eisenstein) (hg : g ≠ 0) (hnm : n = g * m) :
    floordiv n g = m := by
  rw [hnm]
  exact floordiv_mul_cancel g m hg

/-- `ZeroDivisionError`-aware rounded division: Python's complex division
raises `ZeroDivisionError` exactly when the divisor is the zero complex
value, which for `get_complex_form` outputs means the divisor is
`Eisenstein(0, 0)`.  `none` models the exception escaping. -/
def floordivZ (x y : Eisenstein) : Option Eisenstein :=
  if y = 0 then none else some (floordiv x y)

end Eisenstein

/-- `class EisensteinFraction`: stored numerator/denominator pair.
Equality (`__eq__`) is structural on the stored pair, which is `DecidableEq`
here. -/
structure EisensteinFraction where
  n : Eisenstein
  d : Eisenstein
deriving DecidableEq

namespace EisensteinFraction

/-- `EisensteinFraction.__init__` with `Eisenstein` arguments (`int`
arguments are upgraded to `Eisenstein(v, 0)` by the source before this
point): store the pair, compute `gcd_val = gcd(n, d)` and, when
`gcd_val != Eisenstein(0, 0)`, replace the stored pair by
`(n // gcd_val, d // gcd_val)`. -/
def make (num den : Eisenstein) : EisensteinFraction :=
  if Eisenstein.gcd num den = 0 then ⟨num, den⟩
  else ⟨Eisenstein.floordiv num (Eisenstein.gcd num den),
        Eisenstein.floordiv den (Eisenstein.gcd num den)⟩

/-- `__init__` with the possible `ZeroDivisionError` of the two `//`
reductions made explicit (`none` = exception). -/
def makeZ (num den : Eisenstein) : Option EisensteinFraction :=
  if Eisenstein.gcd num den = 0 then some ⟨num, den⟩
  else do
    let a ← Eisenstein.floordivZ num (Eisenstein.gcd num den)
    let b ← Eisenstein.floordivZ den (Eisenstein.gcd num den)
    some ⟨a, b⟩

/-- The constructor never raises: in the reduction branch the divisor
`gcd_val` is nonzero, so the complex divisions cannot divide by zero. -/
theorem makeZ_eq_make (num den : Eisenstein) :
    makeZ num den = some (make num den) := by
  unfold makeZ make Eisenstein.floordivZ
  split_ifs <;> rfl

/-- `__sub__` (fraction operand case):
`(self.n * other.d - other.n * self.d) / (self.d * other.d)`. -/
def sub (p q : EisensteinFraction) : EisensteinFraction :=
  make (p.n * q.d - q.n * p.d) (p.d * q.d)

/-- `__mul__` (fraction operand case): `(self.n * other.n) / (self.d * other.d)`. -/
def mul (p q : EisensteinFraction) : EisensteinFraction :=
  make (p.n * q.n) (p.d * q.d)

def subZ (p q : EisensteinFraction) : Option EisensteinFraction :=
  makeZ (p.n * q.d - q.n * p.d) (p.d * q.d)

def mulZ (p q : EisensteinFraction) : Option EisensteinFraction :=
  makeZ (p.n * q.n) (p.d * q.d)

theorem subZ_eq_sub (p q : EisensteinFraction) : subZ p q = some (sub p q) :=
  makeZ_eq_make _ _

theorem mulZ_eq_mul (p q : EisensteinFraction) : mulZ p q = some (mul p q) :=
  makeZ_eq_make _ _

/-- `inverse(e)`: with `a = e.n.a`, `b = e.n.b`,
`(EisensteinFraction(a - b, a*a - a*b + b*b)
  - EisensteinFraction(Eisenstein(0, -b), a*a - a*b + b*b))
 * EisensteinFraction(e.d, 1)`. -/
def inverse (e : EisensteinFraction) : EisensteinFraction :=
  mul (sub (make ⟨e.n.a - e.n.b, 0⟩
              ⟨e.n.a * e.n.a - e.n.a * e.n.b + e.n.b * e.n.b, 0⟩)
           (make ⟨0, -e.n.b⟩
              ⟨e.n.a * e.n.a - e.n.a * e.n.b + e.n.b * e.n.b, 0⟩))
      (make e.d ⟨1, 0⟩)

/-- `inverse` with every potential `ZeroDivisionError` made explicit. -/
def inverseZ (e : EisensteinFraction) : Option EisensteinFraction := do
  let u ← makeZ ⟨e.n.a - e.n.b, 0⟩
    ⟨e.n.a * e.n.a - e.n.a * e.n.b + e.n.b * e.n.b, 0⟩
  let v ← makeZ ⟨0, -e.n.b⟩
    ⟨e.n.a * e.n.a - e.n.a * e.n.b + e.n.b * e.n.b, 0⟩
  let w ← subZ u v
  let z ← makeZ e.d ⟨1, 0⟩
  mulZ w z

theorem inverseZ_eq_inverse (e : EisensteinFraction) :
    inverseZ e = some (inverse e) := by
  unfold inverseZ inverse
  rw [makeZ_eq_make, makeZ_eq_make, makeZ_eq_make]
  show subZ _ _ >>= _ = _
  rw [subZ_eq_sub]
  show mulZ _ _ = _
  rw [mulZ_eq_mul]

end EisensteinFraction

theorem norm_eq_one_of_dvd_one {e w : Eisenstein} (hw : w.get_norm = 1)
    (h : e ∣ w) : e.get_norm = 1 := by
  have hdvd := Eisenstein.norm_dvd h
  rw [hw] at hdvd
  have hnn := Eisenstein.norm_nonneg e
  rcases Int.isUnit_iff.mp (isUnit_of_dvd_one hdvd) with h1 | h1
  · exact h1
  · omega

/-!
## Model of the dynamic (duck-typed) part of `Eisenstein.__eq__`

`__eq__` reads `other.a` and `other.b` without first upgrading an `int`
operand, so comparing against a non-`Eisenstein` value raises
`AttributeError`.  We model the dynamic operand as `PyValue`, attribute
lookup as `Except`-valued, and the exception as an `Except.error`.
-/

inductive PyError where
  | attributeError : PyError
  | zeroDivisionError : PyError
deriving DecidableEq

/-- A Python value that can appear as the right operand: an `int` or an
`Eisenstein` instance. -/
inductive PyValue where
  | intVal : ℤ → PyValue
  | eisVal : Eisenstein → PyValue
deriving DecidableEq

/-- Attribute lookup `other.a`: `int` has no attribute `a`. -/
def PyValue.attrA : PyValue → Except PyError ℤ
  | PyValue.eisVal e => Except.ok e.a
  | PyValue.intVal _ => Except.error PyError.attributeError

/-- Attribute lookup `other.b`. -/
def PyValue.attrB : PyValue → Except PyError ℤ
  | PyValue.eisVal e => Except.ok e.b
  | PyValue.intVal _ => Except.error PyError.attributeError

/-- `__eq__`: `return self.a == other.a and self.b == other.b`; Python's
`and` short-circuits, so `other.b` is read only when the first comparison
is true. -/
def eisEqPy (e : Eisenstein) (other : PyValue) : Except PyError Bool := do
  let oa ← PyValue.attrA other
  if e.a = oa then do
    let ob ← PyValue.attrB other
    pure (decide (e.b = ob))
  else
    pure false

/-- `__upgrade_int`: an `int` operand becomes `Eisenstein(other, 0)`; this
is what the arithmetic operators (`__add__`, `__sub__`, `__mul__`) apply to
their operand, but `__eq__` does not. -/
def upgradeInt (other : PyValue) : PyValue :=
  match other with
  | PyValue.intVal v => PyValue.eisVal ⟨v, 0⟩
  | v => v

/-!
## The claims
-/

/-- Claim C1. The claim states that for every `EisensteinFraction e` with
nonzero numerator, `multiply(e, inverse(e)) == EisensteinFraction(1, 1)`.
The code violates this: at `e = EisensteinFraction(Eisenstein(0, 1), 1)`
(that is, `e = ω`), whose numerator is nonzero, the product evaluates to
the stored pair `(-1 - 2ω) / 1`, which is not `EisensteinFraction(1, 1)`;
`inverse` builds `(a-b) + bω` instead of the true conjugate `(a-b) - bω`. -/
theorem inverse_mul_omega_ne_one :
    (EisensteinFraction.make ⟨0, 1⟩ ⟨1, 0⟩).n ≠ 0 ∧
    EisensteinFraction.mul (EisensteinFraction.make ⟨0, 1⟩ ⟨1, 0⟩)
        (EisensteinFraction.inverse (EisensteinFraction.make ⟨0, 1⟩ ⟨1, 0⟩))
      = ⟨⟨-1, -2⟩, ⟨1, 0⟩⟩ ∧
    EisensteinFraction.mul (EisensteinFraction.make ⟨0, 1⟩ ⟨1, 0⟩)
        (EisensteinFraction.inverse (EisensteinFraction.make ⟨0, 1⟩ ⟨1, 0⟩))
      ≠ EisensteinFraction.make ⟨1, 0⟩ ⟨1, 0⟩ := by
  refine ⟨?_, ?_, ?_⟩ <;>
  · simp only [EisensteinFraction.mul, EisensteinFraction.sub,
      EisensteinFraction.inverse, EisensteinFraction.make,
      Eisenstein.gcd_eq_gcdInt, Eisenstein.floordiv_eq_floordivInt]
    decide

/-- Claim C2. The claim states that constructing a fraction whose
denominator has norm zero, and inverting a fraction whose numerator is
zero, fail with `DivisionByZero`.  The code raises nothing on either path:
`EisensteinFraction(Eisenstein(1,0), Eisenstein(0,0))` returns normally
storing the zero denominator, and `inverse` of the zero fraction returns
the degenerate pair `0/0` normally (the `Option`-level definitions return
`some`, i.e. no `ZeroDivisionError` escapes, and the code contains no
other error check). -/
theorem zero_denominator_no_error :
    EisensteinFraction.makeZ ⟨1, 0⟩ ⟨0, 0⟩ = some ⟨⟨1, 0⟩, ⟨0, 0⟩⟩ ∧
    EisensteinFraction.inverseZ ⟨⟨0, 0⟩, ⟨1, 0⟩⟩ = some ⟨⟨0, 0⟩, ⟨0, 0⟩⟩ := by
  constructor
  · rw [EisensteinFraction.makeZ_eq_make]
    simp only [EisensteinFraction.make, Eisenstein.gcd_eq_gcdInt,
      Eisenstein.floordiv_eq_floordivInt]
    decide
  · rw [EisensteinFraction.inverseZ_eq_inverse]
    simp only [EisensteinFraction.inverse, EisensteinFraction.mul,
      EisensteinFraction.sub, EisensteinFraction.make,
      Eisenstein.gcd_eq_gcdInt, Eisenstein.floordiv_eq_floordivInt]
    decide

/-- Claim C3. For every fraction constructed from a coprime numerator and
denominator (every common divisor is a unit, i.e. has norm 1), the stored
pair is reduced: the GCD of the stored numerator and denominator has
norm 1. -/
theorem fraction_reduced_of_coprime (num den : Eisenstein)
    (h : ∀ e : Eisenstein, e ∣ num → e ∣ den → e.get_norm = 1) :
    (Eisenstein.gcd (EisensteinFraction.make num den).n
      (EisensteinFraction.make num den).d).get_norm = 1 := by
  obtain ⟨hgn, hgd⟩ := Eisenstein.gcd_dvd num den
  have hg1 : (Eisenstein.gcd num den).get_norm = 1 := h _ hgn hgd
  have hgne : Eisenstein.gcd num den ≠ 0 := by
    intro h0
    rw [h0] at hg1
    exact absurd hg1 (by decide)
  have hmake : EisensteinFraction.make num den
      = ⟨Eisenstein.floordiv num (Eisenstein.gcd num den),
         Eisenstein.floordiv den (Eisenstein.gcd num den)⟩ := by
    unfold EisensteinFraction.make
    rw [if_neg hgne]
  generalize hgg : Eisenstein.gcd num den = g at hgn hgd hg1 hgne hmake
  obtain ⟨m, hm⟩ := hgn
  obtain ⟨k, hk⟩ := hgd
  rw [Eisenstein.floordiv_of_dvd num g m hgne hm,
    Eisenstein.floordiv_of_dvd den g k hgne hk] at hmake
  rw [hmake]
  show (Eisenstein.gcd m k).get_norm = 1
  obtain ⟨hum, huk⟩ := Eisenstein.gcd_dvd m k
  generalize huu : Eisenstein.gcd m k = u at hum huk ⊢
  obtain ⟨c, hc⟩ := hum
  obtain ⟨w, hw⟩ := huk
  have hd1 : g * u ∣ num := ⟨c, by rw [hm, hc, mul_assoc]⟩
  have hd2 : g * u ∣ den := ⟨w, by rw [hk, hw, mul_assoc]⟩
  have h3 := h _ hd1 hd2
  rw [Eisenstein.norm_mul, hg1, one_mul] at h3
  exact h3

theorem fraction_reduced_of_coprime_witness :
    (Eisenstein.gcd (EisensteinFraction.make ⟨3, 1⟩ ⟨1, 0⟩).n
      (EisensteinFraction.make ⟨3, 1⟩ ⟨1, 0⟩).d).get_norm = 1 :=
  fraction_reduced_of_coprime ⟨3, 1⟩ ⟨1, 0⟩ (fun e _ h2 =>
    norm_eq_one_of_dvd_one (by decide) h2)

/-- Claim C4. `multiply(x, y)` returns the Eisenstein integer with
components `(x.a*y.a − x.b*y.b, x.b*y.a + x.a*y.b − x.b*y.b)`; in
particular `Eisenstein(2,1) * Eisenstein(22,4) == Eisenstein(40,26)`. -/
theorem eisenstein_mul_formula :
    (∀ x y : Eisenstein,
      x * y = ⟨x.a * y.a - x.b * y.b, x.b * y.a + x.a * y.b - x.b * y.b⟩) ∧
    (⟨2, 1⟩ : Eisenstein) * ⟨22, 4⟩ = ⟨40, 26⟩ :=
  ⟨fun _ _ => rfl, by decide⟩

/-- Claim C5. Round-trip: for all integers `a, b`,
`fromComplex(toComplex(Eisenstein(a,b))) == Eisenstein(a,b)` (in the exact
model of the floating-point arithmetic this holds for all `a, b`, hence in
particular for all small ones). -/
theorem complex_roundtrip (a b : ℤ) :
    get_eisenstein_form (Eisenstein.get_complex_form ⟨a, b⟩) = ⟨a, b⟩ := by
  unfold get_eisenstein_form Eisenstein.get_complex_form
  apply Eisenstein.ext2
  · show roundRat ((a : ℚ) - b / 2 + b / 2) = a
    rw [show ((a : ℚ) - b / 2 + b / 2) = ((a : ℤ) : ℚ) by ring]
    exact roundRat_intCast a
  · show roundRat (2 * ((b : ℚ) / 2)) = b
    rw [show (2 * ((b : ℚ) / 2)) = ((b : ℤ) : ℚ) by ring]
    exact roundRat_intCast b

/-- Claim C6. For every `x` and nonzero `y`, the remainder
`x − roundedDivide(x, y) * y` has norm strictly smaller than the norm of
`y`; consequently the GCD loop's remainder sequence strictly descends and
the loop stabilizes within `norm y + 1` iterations (any fuel beyond
`norm y` gives the value of `gcdLoop`), for every pair of inputs. -/
theorem remainder_norm_descent (x y : Eisenstein) (hy : y ≠ 0) :
    (Eisenstein.emod x y).get_norm < y.get_norm ∧
    Eisenstein.emod x y = x - Eisenstein.floordiv x y * y ∧
    ∀ f : ℕ, y.get_norm.toNat < f →
      Eisenstein.gcdFuel f x y = Eisenstein.gcdLoop x y :=
  ⟨Eisenstein.emod_norm_lt x y hy, rfl,
    fun f hf => Eisenstein.gcdFuel_eq_gcdLoop f x y hf⟩

theorem remainder_norm_descent_witness :
    (Eisenstein.emod ⟨5, 3⟩ ⟨2, 1⟩).get_norm < (⟨2, 1⟩ : Eisenstein).get_norm :=
  (remainder_norm_descent ⟨5, 3⟩ ⟨2, 1⟩ (by decide)).1

/-- Claim C7. `norm(e) = a² − a·b + b²`, and this is nonnegative for all
integers `a, b`. -/
theorem norm_formula_nonneg (a b : ℤ) :
    Eisenstein.get_norm ⟨a, b⟩ = a ^ 2 - a * b + b ^ 2 ∧
    0 ≤ Eisenstein.get_norm ⟨a, b⟩ :=
  ⟨by unfold Eisenstein.get_norm; ring, Eisenstein.norm_nonneg _⟩

/-- Claim C8. `gcd(Eisenstein(0,0), Eisenstein(0,0))` returns the zero
element, and terminates immediately: a single iteration of the loop body
(fuel 1) already produces the result. -/
theorem gcd_zero_zero :
    Eisenstein.gcd ⟨0, 0⟩ ⟨0, 0⟩ = ⟨0, 0⟩ ∧
    Eisenstein.gcdFuel 1 ⟨0, 0⟩ ⟨0, 0⟩ = ⟨0, 0⟩ := by
  constructor
  · rw [Eisenstein.gcd_eq_gcdInt]
    decide
  · decide

/-- Claim C9. Comparing an `Eisenstein` for equality against a value that
is not an `Eisenstein` instance (for example a plain `int m`) raises
`AttributeError` instead of upgrading the operand or returning `False` —
even though the same `int` would be upgraded to `Eisenstein(m, 0)` by the
arithmetic operators. -/
theorem eq_int_raises_attribute_error (e : Eisenstein) (m : ℤ) :
    eisEqPy e (PyValue.intVal m) = Except.error PyError.attributeError ∧
    upgradeInt (PyValue.intVal m) = PyValue.eisVal ⟨m, 0⟩ :=
  ⟨rfl, rfl⟩

/-- Claim C10. The loop in `gcd` exits exactly when the second element of
the pair equals `Eisenstein(0, 0)`, decided by exact structural equality on
the integer components (`b.a = 0 ∧ b.b = 0`); otherwise it recurses on
`(b, a % b)`.  No floating-point quantity participates in the exit
decision (the condition is integer equality, for operands of every
magnitude). -/
theorem gcd_loop_exit_iff_zero (a b : Eisenstein) :
    Eisenstein.gcdLoop a b
      = if b.a = 0 ∧ b.b = 0 then a
        else Eisenstein.gcdLoop b (Eisenstein.emod a b) := by
  have hiff : b = 0 ↔ (b.a = 0 ∧ b.b = 0) := Eisenstein.ext_iff
  rw [Eisenstein.gcdLoop_rec a b]
  by_cases hb : b = 0
  · rw [if_pos hb, if_pos (hiff.mp hb)]
  · rw [if_neg hb, if_neg (fun hc => hb (hiff.mpr hc))]
